import Mathlib

/-!
Shallow embedding of the helper module `lib/stuff.js` of the repository
(string formatting, capitalization, array pop by value, nested path lookup,
the state/URI query codec, and query-string merging), together with models
of the JavaScript and library primitives the module relies on:
`encodeURIComponent`, `decodeURIComponent`, `String.prototype.split`, the
Node `querystring` parse/stringify pair, and the lodash helpers `isEmpty`,
`isString`, `extend` and `lastIndexOf`.

JavaScript exceptions are modelled with `Except JSErr`; nullable inputs with
`Option`; JavaScript objects (insertion-ordered string-keyed maps) with
association lists whose update operation keeps the position of an existing
key and appends a fresh key at the end, exactly as property assignment does.
-/

namespace Stuff

/-- JavaScript runtime errors that the modelled code can raise. -/
inductive JSErr where
  | typeError
  | uriError
  deriving DecidableEq, Repr

/-- Model of `String.prototype.split` with a one-character separator: the
string is cut at every occurrence of `sep`; the empty string yields a single
empty piece, as in JavaScript. -/
def splitOnChar (sep : Char) : List Char → List (List Char)
  | [] => [[]]
  | c :: rest =>
    match splitOnChar sep rest with
    | [] => [[c]]
    | p :: ps => if c = sep then [] :: p :: ps else (c :: p) :: ps

/-- Model of `Array.prototype.join` at the character-list level. -/
def intercalateChar (sep : Char) : List (List Char) → List Char
  | [] => []
  | [p] => p
  | p :: q :: ps => p ++ sep :: intercalateChar sep (q :: ps)

theorem splitOnChar_ne_nil (sep : Char) (l : List Char) : splitOnChar sep l ≠ [] := by
  induction l with
  | nil => simp [splitOnChar]
  | cons c rest ih =>
    simp only [splitOnChar]
    cases h : splitOnChar sep rest with
    | nil => simp
    | cons p ps => by_cases hc : c = sep <;> simp [hc]

theorem splitOnChar_no_sep (sep : Char) (l : List Char) (h : sep ∉ l) :
    splitOnChar sep l = [l] := by
  induction l with
  | nil => rfl
  | cons c rest ih =>
    simp only [List.mem_cons, not_or] at h
    have hc : ¬ c = sep := fun hcs => h.1 hcs.symm
    simp only [splitOnChar, ih h.2, if_neg hc]

theorem splitOnChar_append_sep (sep : Char) (xs ys : List Char) (h : sep ∉ xs) :
    splitOnChar sep (xs ++ sep :: ys) = xs :: splitOnChar sep ys := by
  induction xs with
  | nil =>
    cases hys : splitOnChar sep ys with
    | nil => exact absurd hys (splitOnChar_ne_nil sep ys)
    | cons p ps => simp [splitOnChar, hys]
  | cons c rest ih =>
    simp only [List.mem_cons, not_or] at h
    have hc : ¬ c = sep := fun hcs => h.1 hcs.symm
    have h2 := ih h.2
    simp only [List.cons_append, splitOnChar, List.append_eq, h2, if_neg hc]

theorem splitOnChar_intercalate (sep : Char) (ps : List (List Char))
    (hne : ps ≠ []) (h : ∀ p ∈ ps, sep ∉ p) :
    splitOnChar sep (intercalateChar sep ps) = ps := by
  induction ps with
  | nil => exact absurd rfl hne
  | cons p tail ih =>
    cases tail with
    | nil => exact splitOnChar_no_sep sep p (h p (by simp))
    | cons q qs =>
      have hstep : intercalateChar sep (p :: q :: qs) = p ++ sep :: intercalateChar sep (q :: qs) := rfl
      rw [hstep, splitOnChar_append_sep sep p _ (h p (by simp)),
        ih (by simp) (fun r hr => h r (List.mem_cons_of_mem p hr))]

theorem takeWhile_append_all {α : Type} (p : α → Bool) (xs ys : List α)
    (h : ∀ x ∈ xs, p x) : (xs ++ ys).takeWhile p = xs ++ ys.takeWhile p := by
  induction xs with
  | nil => rfl
  | cons x rest ih =>
    have hx : p x := h x (by simp)
    simp only [List.cons_append, List.takeWhile_cons, hx, if_true,
      ih (fun a ha => h a (List.mem_cons_of_mem x ha))]

theorem dropWhile_append_all {α : Type} (p : α → Bool) (xs ys : List α)
    (h : ∀ x ∈ xs, p x) : (xs ++ ys).dropWhile p = ys.dropWhile p := by
  induction xs with
  | nil => rfl
  | cons x rest ih =>
    have hx : p x := h x (by simp)
    simp only [List.cons_append, List.dropWhile_cons, hx, if_true,
      ih (fun a ha => h a (List.mem_cons_of_mem x ha))]

/-- Value of a hexadecimal digit character. -/
def hexDigitVal (c : Char) : Option Nat :=
  if c.isDigit then some (c.toNat - 48)
  else if 65 ≤ c.toNat ∧ c.toNat ≤ 70 then some (c.toNat - 55)
  else if 97 ≤ c.toNat ∧ c.toNat ≤ 102 then some (c.toNat - 87)
  else none

/-- Upper-case hexadecimal digit character for a value below 16. -/
def hexChar (n : Nat) : Char :=
  if n < 10 then Char.ofNat (48 + n) else Char.ofNat (55 + n)

/-- UTF-8 byte sequence of a Unicode code point. -/
def utf8Bytes (n : Nat) : List Nat :=
  if n < 128 then [n]
  else if n < 2048 then [192 + n / 64, 128 + n % 64]
  else if n < 65536 then [224 + n / 4096, 128 + (n / 64) % 64, 128 + n % 64]
  else [240 + n / 262144, 128 + (n / 4096) % 64, 128 + (n / 64) % 64, 128 + n % 64]

/-- Percent escape of one byte, upper-case hex as produced by JavaScript. -/
def pctEncodeByte (b : Nat) : List Char := ['%', hexChar (b / 16), hexChar (b % 16)]

/-- Characters left unescaped by `encodeURIComponent`: ASCII alphanumerics
and `- _ . ! ~ * ( )` together with the apostrophe (code 39). -/
def uriUnreserved (c : Char) : Bool :=
  c.isAlpha || c.isDigit ||
    c = '-' || c = '_' || c = '.' || c = '!' || c = '~' || c = '*' ||
    c = Char.ofNat 39 || c = '(' || c = ')'

/-- Model of `encodeURIComponent` on character lists: unreserved characters
pass through, every other character is replaced by the percent escapes of
its UTF-8 bytes. -/
def encodeURIList : List Char → List Char
  | [] => []
  | c :: rest =>
    (if uriUnreserved c then [c] else ((utf8Bytes c.toNat).map pctEncodeByte).flatten)
      ++ encodeURIList rest

/-- Model of `encodeURIComponent`. -/
def encodeURIComponent (s : String) : String := ⟨encodeURIList s.data⟩

/-- First phase of the ECMAScript URI `Decode` algorithm: scan the input,
turning every `%XX` escape into the byte it denotes (`Sum.inr`) and passing
every other character through (`Sum.inl`); a `%` not followed by two hex
digits raises `URIError`. -/
def pctTokens : List Char → Except JSErr (List (Char ⊕ Nat))
  | [] => .ok []
  | '%' :: rest =>
    match rest with
    | h1 :: h2 :: r =>
      match hexDigitVal h1, hexDigitVal h2 with
      | some a, some b => (fun t => Sum.inr (16 * a + b) :: t) <$> pctTokens r
      | _, _ => .error .uriError
    | _ => .error .uriError
  | c :: rest => (fun t => Sum.inl c :: t) <$> pctTokens rest

/-- Whether a byte is a UTF-8 continuation byte. -/
def isContByte (b : Nat) : Bool := 128 ≤ b && b ≤ 191

/-- Second phase of the URI `Decode` algorithm, as a state machine over the
token list: `pend` is the number of continuation bytes still expected,
`acc` the partially assembled code point, `low` the smallest code point the
current multi-byte form may legally produce (overlong rejection). Escaped
bytes must form valid UTF-8 encodings of Unicode scalar values (no overlong
forms, no surrogates); any violation raises `URIError`. Unescaped
characters pass through unchanged. -/
def utf8Go : Nat → Nat → Nat → List (Char ⊕ Nat) → Except JSErr (List Char)
  | 0, _, _, [] => .ok []
  | _+1, _, _, [] => .error .uriError
  | 0, _, _, Sum.inl c :: rest => (fun t => c :: t) <$> utf8Go 0 0 0 rest
  | _+1, _, _, Sum.inl _ :: _ => .error .uriError
  | 0, _, _, Sum.inr b :: rest =>
    if b < 128 then (fun t => Char.ofNat b :: t) <$> utf8Go 0 0 0 rest
    else if 194 ≤ b ∧ b ≤ 223 then utf8Go 1 (b % 32) 128 rest
    else if 224 ≤ b ∧ b ≤ 239 then utf8Go 2 (b % 16) 2048 rest
    else if 240 ≤ b ∧ b ≤ 244 then utf8Go 3 (b % 8) 65536 rest
    else .error .uriError
  | 1, acc, low, Sum.inr b :: rest =>
    if isContByte b then
      let cp := acc * 64 + b % 64
      if low ≤ cp ∧ cp ≤ 1114111 ∧ (cp < 55296 ∨ 57344 ≤ cp) then
        (fun t => Char.ofNat cp :: t) <$> utf8Go 0 0 0 rest
      else .error .uriError
    else .error .uriError
  | n+2, acc, low, Sum.inr b :: rest =>
    if isContByte b then utf8Go (n+1) (acc * 64 + b % 64) low rest
    else .error .uriError

/-- UTF-8 assembly of a percent-token list. -/
def utf8Assemble (l : List (Char ⊕ Nat)) : Except JSErr (List Char) :=
  utf8Go 0 0 0 l

/-- Model of `decodeURIComponent`: percent-escape scan followed by UTF-8
assembly of the escaped bytes. -/
def decodeURIList (l : List Char) : Except JSErr (List Char) := do
  utf8Assemble (← pctTokens l)

/-- Model of `decodeURIComponent` on strings. -/
def decodeURIComponent (s : String) : Except JSErr String :=
  (decodeURIList s.data).map (fun l => ⟨l⟩)

theorem uriUnreserved_ne_pct (c : Char) (h : uriUnreserved c = true) : c ≠ '%' := by
  rintro rfl
  exact absurd h (by decide)

theorem encodeURIList_id (l : List Char) (h : ∀ c ∈ l, uriUnreserved c) :
    encodeURIList l = l := by
  induction l with
  | nil => rfl
  | cons c rest ih =>
    have hc : uriUnreserved c := h c (by simp)
    simp only [encodeURIList, hc, if_true,
      ih (fun a ha => h a (List.mem_cons_of_mem c ha)), List.singleton_append]

theorem pctTokens_no_pct (l : List Char) (h : ∀ c ∈ l, c ≠ '%') :
    pctTokens l = .ok (l.map Sum.inl) := by
  induction l with
  | nil => rfl
  | cons c rest ih =>
    rw [pctTokens.eq_4 c rest (h c (by simp)),
      ih (fun a ha => h a (List.mem_cons_of_mem c ha))]
    rfl

theorem utf8Assemble_inl (l : List Char) :
    utf8Assemble (l.map Sum.inl) = .ok l := by
  induction l with
  | nil => rfl
  | cons c rest ih =>
    rw [utf8Assemble] at ih
    rw [List.map_cons, utf8Assemble, utf8Go.eq_3, ih]
    rfl

theorem decodeURIList_id (l : List Char) (h : ∀ c ∈ l, c ≠ '%') :
    decodeURIList l = .ok l := by
  rw [decodeURIList, pctTokens_no_pct l h]
  simpa using utf8Assemble_inl l

/-- A JavaScript object used as a string-to-string map, as an insertion
ordered association list. -/
abbrev SMap := List (String × String)

/-- JavaScript property assignment `obj[k] = v` on a string-valued map: an
existing key keeps its position and receives the new value, a fresh key is
appended at the end. -/
def objSetS (m : SMap) (k v : String) : SMap :=
  if m.any (fun p => p.1 = k) then
    m.map (fun p => if p.1 = k then (k, v) else p)
  else m ++ [(k, v)]

/-- `state2uri` from `lib/stuff.js` (lines 155-162): own keys are joined as
`key=value` pairs with `&`; only the value is percent-encoded. A nullish
`state` iterates zero keys and yields the empty string. -/
def state2uri (state : Option SMap) : String :=
  match state with
  | none => ""
  | some st =>
    ⟨intercalateChar '&' (st.map (fun p => p.1.data ++ '=' :: (encodeURIComponent p.2).data))⟩

/-- JavaScript regular-expression line terminators (the characters not
matched by `.`). -/
def isLineTerm (c : Char) : Bool :=
  c = Char.ofNat 10 || c = Char.ofNat 13 || c = Char.ofNat 8232 || c = Char.ofNat 8233

/-- One global pass of `part.replace(/([^=]+)\=?(.*)/g, ...)` (line 172 of
`lib/stuff.js`): each match yields the pair of its two capture groups, the
name (a maximal nonempty run of characters other than `=`) and the raw
value (the rest of the line after one optional `=`); positions that cannot
start a match are skipped. The fuel argument bounds the number of scan
steps; every step consumes at least one character, so the input length is
always enough fuel. -/
def partAssignAux : Nat → List Char → List (String × String)
  | 0, _ => []
  | _+1, [] => []
  | fuel+1, c :: rest =>
    if c = '=' then partAssignAux fuel rest
    else
      let name := c :: rest.takeWhile (fun x => x ≠ '=')
      let afterName := rest.dropWhile (fun x => x ≠ '=')
      let afterEq := if afterName.head? = some '=' then afterName.tail else afterName
      let value := afterEq.takeWhile (fun x => ¬ isLineTerm x)
      let restAfter := afterEq.dropWhile (fun x => ¬ isLineTerm x)
      (⟨name⟩, ⟨value⟩) :: partAssignAux fuel restAfter

/-- All matches of the segment regex of `uri2state` on one segment. -/
def partAssignments (part : List Char) : List (String × String) :=
  partAssignAux part.length part

/-- The `if (uri.charAt(0) == '?') uri = uri.substr(1)` step of
`uri2state` (line 168 of `lib/stuff.js`). -/
def stripLeadingQM (l : List Char) : List Char :=
  if l.head? = some '?' then l.tail else l

/-- One segment step of `uri2state`: an empty segment is skipped, every
regex match of a nonempty segment assigns
`result[name] = decodeURIComponent(value)`. -/
def uri2stateStep (result : SMap) (part : List Char) : Except JSErr SMap :=
  if part = [] then pure result
  else
    (partAssignments part).foldlM (fun res pr => do
      let v ← decodeURIComponent pr.2
      pure (objSetS res pr.1 v)) result

/-- `uri2state` from `lib/stuff.js` (lines 164-177): a falsy `uri` yields
the empty mapping; otherwise one leading `?` is stripped, the string is
split on `&` and the segment step is folded over the segments. A failing
decode propagates as an exception. -/
def uri2state (uri : Option String) : Except JSErr SMap :=
  match uri with
  | none => .ok []
  | some u =>
    if u = "" then .ok []
    else (splitOnChar '&' (stripLeadingQM u.data)).foldlM uri2stateStep []

/-- Parsed query mapping as produced by Node `querystring.parse`: insertion
ordered keys; a key hit once holds one plain value, a repeated key
accumulates an array, represented uniformly as the list of values in
order. -/
abbrev QMap := List (String × List String)

/-- `querystring.parse` accumulation: a fresh key is appended with a single
value, a repeated key pushes the value at the end of its list. -/
def qmapAdd (m : QMap) (k v : String) : QMap :=
  if m.any (fun p => p.1 = k) then
    m.map (fun p => if p.1 = k then (p.1, p.2 ++ [v]) else p)
  else m ++ [(k, [v])]

/-- The `+` to `%20` replacement applied by `querystring.parse` on each
segment before percent-decoding. -/
def plusToPct : List Char → List Char :=
  List.foldr (fun c acc => if c = '+' then '%' :: '2' :: '0' :: acc else c :: acc) []

/-- One segment step of Node `querystring.parse`: replace `+` by `%20`,
cut the segment at its first `=` (a segment without `=` has the empty
value), percent-decode both sides, and accumulate into the mapping. -/
def qsParseStep (obj : QMap) (seg : List Char) : Except JSErr QMap := do
  let x := plusToPct seg
  let kstr := x.takeWhile (fun c => c ≠ '=')
  let rest := x.dropWhile (fun c => c ≠ '=')
  let vstr := match rest with
    | '=' :: r => r
    | r => r
  let k ← decodeURIList kstr
  let v ← decodeURIList vstr
  pure (qmapAdd obj ⟨k⟩ ⟨v⟩)

/-- Model of Node `querystring.parse` with the default separators: split on
`&` and fold the segment step over the segments. The 1000-key truncation
of the library default is not modelled. -/
def qsParse (qs : String) : Except JSErr QMap :=
  if qs = "" then .ok []
  else (splitOnChar '&' qs.data).foldlM qsParseStep []

/-- Model of Node `querystring.stringify`: one `key=value` piece per value
of each key, keys and values percent-encoded, pieces joined with `&`. -/
def qsStringify (m : QMap) : String :=
  ⟨intercalateChar '&' (m.map (fun p =>
    intercalateChar '&' (p.2.map (fun v =>
      (encodeURIComponent p.1).data ++ '=' :: (encodeURIComponent v).data))))⟩

/-- JavaScript property assignment on a query mapping. -/
def objSetQ (m : QMap) (k : String) (v : List String) : QMap :=
  if m.any (fun p => p.1 = k) then
    m.map (fun p => if p.1 = k then (p.1, v) else p)
  else m ++ [(k, v)]

/-- lodash `_.extend(dst, src)`: every own key of `src` is assigned onto
`dst` in enumeration order. In JavaScript this mutates `dst` and returns
it; the model returns the final contents. -/
def lodashExtend (dst src : QMap) : QMap :=
  src.foldl (fun d p => objSetQ d p.1 p.2) dst

/-- JavaScript `delete obj[k]`. -/
def objDelete (m : QMap) (k : String) : QMap :=
  m.filter (fun p => p.1 ≠ k)

/-- Key lookup `obj[k]` on a query mapping; an absent key is undefined. -/
def objLookup (m : QMap) (k : String) : Option (List String) :=
  (m.find? (fun p => p.1 = k)).map Prod.snd

/-- Whether a key is present in a query mapping. -/
def objHasKey (m : QMap) (k : String) : Bool := m.any (fun p => p.1 = k)

/-- The `oldUrl` argument of `extendQuery`: either a URL/query string or an
already parsed parameter mapping. -/
inductive UrlArg where
  | str (s : String)
  | obj (m : QMap)
  deriving DecidableEq

/-- lodash `_.isEmpty` on the values `extendQuery` inspects: nullish values
are empty, a string is empty when its length is zero, a mapping when it
has no own keys. -/
def urlArgIsEmpty : Option UrlArg → Bool
  | none => true
  | some (.str s) => decide (s = "")
  | some (.obj m) => decide (m = [])

/-- `String.prototype.indexOf` restricted to a one-character needle. -/
def jsIndexOfChar (s : String) (c : Char) : Option Nat :=
  s.data.findIdx? (fun x => x == c)

/-- Query substring of a URL: everything after the first `?`, or the empty
string when there is no `?` (lines 192-193 and 198-199 of
`lib/stuff.js`). -/
def queryOf (s : String) : String :=
  match jsIndexOfChar s '?' with
  | some i => ⟨s.data.drop (i + 1)⟩
  | none => ""

/-- Base of a URL: everything before the first `?`, or the whole string
when there is no `?` (line 210 of `lib/stuff.js`). -/
def baseOf (s : String) : String :=
  match jsIndexOfChar s '?' with
  | some i => ⟨s.data.take i⟩
  | none => s

/-- `newQuery ? querystring.parse(newQuery) : {}` (lines 194 and 200 of
`lib/stuff.js`). -/
def parsedQueryOf (s : String) : Except JSErr QMap :=
  if queryOf s = "" then .ok [] else qsParse (queryOf s)

/-- JavaScript truthiness of the optional `forcedRenewParam` string. -/
def strTruthy : Option String → Bool
  | none => false
  | some s => !(decide (s = ""))

/-- `extendQuery` from `lib/stuff.js` (lines 186-214). The first component
models the returned value (`Except` because a malformed percent escape
makes `querystring.parse` raise); the second models the final contents of
the caller-supplied object when `oldUrl` is an already parsed mapping: the
code aliases it (`oldQueryParsed = oldUrl`), deletes the forced key from
it, and merges the new parameters into it with `_.extend`, all of which
mutate the caller object in place. -/
def extendQueryFull (newUrl0 : Option String) (oldUrl : Option UrlArg)
    (forcedRenewParam : Option String) : Except JSErr String × Option QMap :=
  let newUrl := newUrl0.getD ""
  let oldObj0 : Option QMap := match oldUrl with
    | some (.obj m) => some m
    | _ => none
  if urlArgIsEmpty oldUrl && decide (newUrl = "") then (.ok "", oldObj0)
  else if urlArgIsEmpty oldUrl then (.ok newUrl, oldObj0)
  else
    match parsedQueryOf newUrl with
    | .error e => (.error e, oldObj0)
    | .ok newQueryParsed =>
      let oldParsed : Except JSErr QMap := match oldUrl with
        | some (.str s) => parsedQueryOf s
        | some (.obj m) => .ok m
        | none => .ok []
      match oldParsed with
      | .error e => (.error e, oldObj0)
      | .ok oldQueryParsed0 =>
        let oldQueryParsed :=
          if strTruthy forcedRenewParam then
            objDelete oldQueryParsed0 (forcedRenewParam.getD "")
          else oldQueryParsed0
        let resQueryParsed := lodashExtend oldQueryParsed newQueryParsed
        let resBase := baseOf newUrl
        let resQuery := if resQueryParsed = [] then "" else "?" ++ qsStringify resQueryParsed
        let oldAfter : Option QMap := match oldUrl with
          | some (.obj _) => some resQueryParsed
          | _ => none
        (.ok (resBase ++ resQuery), oldAfter)

/-- `extendQuery` on plain string arguments, result value only. -/
def extendQuery (newUrl : String) (oldUrl : String) (frp : Option String) :
    Except JSErr String :=
  (extendQueryFull (some newUrl) (some (.str oldUrl)) frp).1

/-- `String.prototype.split` with a string separator (nonempty for every
use in this module, since `getByPath` coerces a falsy separator to a dot):
scan left to right, cutting at each leftmost occurrence. Fuel bounds the
scan; every step consumes at least one character. -/
def jsSplitAux (sep : List Char) : Nat → List Char → List (List Char)
  | 0, l => [l]
  | _+1, [] => [[]]
  | fuel+1, c :: rest =>
    if sep.isPrefixOf (c :: rest) then
      [] :: jsSplitAux sep fuel ((c :: rest).drop sep.length)
    else
      match jsSplitAux sep fuel rest with
      | [] => [[c]]
      | p :: ps => (c :: p) :: ps

/-- `path.split(separator)` as a list of key strings. -/
def jsSplit (s sep : String) : List String :=
  (jsSplitAux sep.data s.data.length s.data).map (fun l => ⟨l⟩)

/-- The JavaScript values `getByPath` walks: primitives and string-keyed
objects. Property access on a primitive is modelled as absent. -/
inductive JSVal where
  | undefined
  | null
  | bool (b : Bool)
  | num (n : Int)
  | strv (s : String)
  | obj (fields : List (String × JSVal))

/-- JavaScript truthiness of a value. -/
def jsTruthy : JSVal → Bool
  | .undefined => false
  | .null => false
  | .bool b => b
  | .num n => !(decide (n = 0))
  | .strv s => !(decide (s = ""))
  | .obj _ => true

/-- JavaScript property read `obj[k]` as used by the path walk: own keys of
an object; everything else reads as undefined. -/
def jsIndex (v : JSVal) (k : String) : JSVal :=
  match v with
  | .obj fields => ((fields.find? (fun p => p.1 == k)).map Prod.snd).getD .undefined
  | _ => .undefined

/-- The `while (paths.length && obj) obj = obj[paths.shift()]` loop of
`getByPath` (lines 148-152 of `lib/stuff.js`). -/
def getByPathGo : List String → JSVal → JSVal
  | [], obj => obj
  | p :: ps, obj => if jsTruthy obj then getByPathGo ps (jsIndex obj p) else obj

/-- `getByPath` from `lib/stuff.js` (lines 144-153): a falsy separator is
coerced to a dot, the path is split on it and walked; a nullish path makes
`path.split` raise a TypeError. -/
def getByPath (obj : JSVal) (path : Option String) (sep : Option String) :
    Except JSErr JSVal :=
  match path with
  | none => .error .typeError
  | some p =>
    let s := match sep with
      | none => "."
      | some t => if t = "" then "." else t
    .ok (getByPathGo (jsSplit p s) obj)

/-- Comparison definition following the wording of spec section 4.5: split
the path on the separator (default dot) into keys, then successively index
with each key in order, keeping the current value unchanged once it is
falsy, and return the final current value. Stated as a fold over the keys,
to be compared with the loop of the code. -/
def getByPathSpec (obj : JSVal) (path : String) (sep : Option String) : JSVal :=
  let s := match sep with
    | none => "."
    | some t => if t = "" then "." else t
  (jsSplit path s).foldl (fun acc k => if jsTruthy acc then jsIndex acc k else acc) obj

/-- `parseInt(num, 10)` on a nonempty digit run. -/
def digitsToNat (ds : List Char) : Nat :=
  ds.foldl (fun a c => a * 10 + (c.toNat - 48)) 0

/-- Substitution value of a format token: the array read `values[num]`,
coerced to a string by `String.prototype.replace`; an out-of-range index
reads `undefined`, whose string coercion is the text `undefined`. -/
def fmtSubst : List String → Nat → String
  | [], _ => "undefined"
  | v :: _, 0 => v
  | _ :: vs, n+1 => fmtSubst vs n

/-- The scan of `str.replace(/%(\d+)/g, ...)` (lines 63-66 of
`lib/stuff.js`): at a `%` followed by at least one digit, the maximal
digit run forms the token and is replaced by its substitution value; any
other character is copied. Fuel bounds the scan; every step consumes at
least one character. -/
def replTokensAux (values : List String) : Nat → List Char → List Char
  | 0, _ => []
  | _+1, [] => []
  | fuel+1, c :: rest =>
    if c = '%' ∧ (rest.takeWhile Char.isDigit) ≠ [] then
      (fmtSubst values (digitsToNat (rest.takeWhile Char.isDigit))).data
        ++ replTokensAux values fuel (rest.dropWhile Char.isDigit)
    else c :: replTokensAux values fuel rest

/-- `format` from `lib/stuff.js` (lines 60-67): `values` is the JavaScript
`arguments` object, whose slot 0 holds the template itself; a nullish
template makes `str.replace` raise a TypeError. -/
def format (str : Option String) (args : List String) : Except JSErr String :=
  match str with
  | none => .error .typeError
  | some s => .ok ⟨replTokensAux (s :: args) s.data.length s.data⟩

/-- `capitalize` from `lib/stuff.js` (lines 117-120): nullish input is
coerced to the empty string, then the first character is upper-cased (the
model covers the simple case mapping of ASCII letters) and the remainder
is kept. -/
def capitalize (str : Option String) : String :=
  match str with
  | none => ""
  | some s =>
    match s.data with
    | [] => ""
    | c :: rest => ⟨c.toUpper :: rest⟩

/-- lodash `_.lastIndexOf`: index of the last element strictly equal to
`value`, if any. -/
def lastIndexOf {α : Type} [DecidableEq α] (array : List α) (value : α) : Option Nat :=
  match array.reverse.findIdx? (fun x => x == value) with
  | some j => some (array.length - 1 - j)
  | none => none

/-- `pop` from `lib/stuff.js` (lines 128-134): removes in place the one
element at the last index strictly equal to `value` (`splice(lastIndex,
1)`), a no-op when no index matches; the model returns the final contents
of the caller array. -/
def pop {α : Type} [DecidableEq α] (array : List α) (value : α) : List α :=
  match lastIndexOf array value with
  | some i => array.eraseIdx i
  | none => array

theorem lastIndexOf_not_mem {α : Type} [DecidableEq α] (l : List α) (v : α)
    (h : v ∉ l) : lastIndexOf l v = none := by
  rw [lastIndexOf]
  have hnone : l.reverse.findIdx? (fun x => x == v) = none := by
    rw [List.findIdx?_eq_none_iff]
    intro x hx
    rw [beq_eq_false_iff_ne]
    rintro rfl
    exact h (List.mem_reverse.mp hx)
  rw [hnone]

theorem lastIndexOf_last {α : Type} [DecidableEq α] (pre post : List α) (v : α)
    (h : v ∉ post) :
    lastIndexOf (pre ++ v :: post) v = some pre.length := by
  rw [lastIndexOf]
  have hrev : (pre ++ v :: post).reverse = post.reverse ++ v :: pre.reverse := by
    simp
  have hpost : post.reverse.findIdx? (fun x => x == v) = none := by
    rw [List.findIdx?_eq_none_iff]
    intro x hx
    rw [beq_eq_false_iff_ne]
    rintro rfl
    exact h (List.mem_reverse.mp hx)
  rw [hrev]
  simp only [List.findIdx?_append, hpost, Option.none_or, List.findIdx?_cons,
    beq_self_eq_true, if_true, Option.map_some', List.length_reverse]
  simp only [List.length_append, List.length_cons]
  congr 1
  omega

/-- C9: `pop` removes in place exactly the element at the last index whose
element is strictly equal to `value`, and is a no-op leaving the array
unchanged when no element matches; `pop [1,2,1,3] 1` yields `[1,2,3]`. -/
theorem c9_pop_spec (pre post l : List Int) (v : Int)
    (h1 : v ∉ post) (h2 : v ∉ l) :
    pop (pre ++ v :: post) v = pre ++ post ∧ pop l v = l ∧
      pop [1, 2, 1, 3] (1 : Int) = [1, 2, 3] := by
  refine ⟨?_, ?_, by decide⟩
  · rw [pop, lastIndexOf_last pre post v h1]
    show (pre ++ v :: post).eraseIdx pre.length = pre ++ post
    rw [List.eraseIdx_append_of_length_le (Nat.le_refl pre.length), Nat.sub_self]
    simp
  · rw [pop, lastIndexOf_not_mem l v h2]

/-- Witness for C9 at concrete inputs. -/
theorem c9_pop_spec_witness :
    pop ([1, 2] ++ (1 : Int) :: [3]) 1 = [1, 2] ++ [3] ∧
      pop [2, 3] (1 : Int) = [2, 3] ∧ pop [1, 2, 1, 3] (1 : Int) = [1, 2, 3] :=
  c9_pop_spec [1, 2] [3] [2, 3] 1 (by decide) (by decide)

/-- C10: in `format`, the substitution table is the whole argument list
with slot 0 holding the template itself, so the token `%0` re-inserts the
template text rather than any caller-supplied value: `format('x%0', 'A')`
yields `xx%0`, and `%0` alone maps to itself whatever the arguments. -/
theorem c10_format_token_zero (args : List String) :
    format (some "x%0") ["A"] = .ok "xx%0" ∧ format (some "%0") args = .ok "%0" :=
  ⟨rfl, rfl⟩

/-- C5: `extendQuery` returns the empty string when both `newUrl` and
`oldUrl` are empty, and returns `newUrl` unchanged whenever `oldUrl` is
empty (as a string or as a mapping) and `newUrl` is nonempty. -/
theorem c5_extendQuery_empty (n : String) (h : n ≠ "") :
    extendQuery "" "" none = .ok "" ∧ extendQuery n "" none = .ok n ∧
      (extendQueryFull (some n) (some (.obj [])) none).1 = .ok n := by
  refine ⟨rfl, ?_, ?_⟩ <;>
    simp [extendQuery, extendQueryFull, urlArgIsEmpty, h]

/-- Witness for C5 at a concrete input. -/
theorem c5_extendQuery_empty_witness :
    extendQuery "" "" none = .ok "" ∧ extendQuery "/p" "" none = .ok "/p" ∧
      (extendQueryFull (some "/p") (some (.obj [])) none).1 = .ok "/p" :=
  c5_extendQuery_empty "/p" (by decide)

/-- C7 counterexample: `format` applied to a nullish template raises a
TypeError (`str.replace` on a nullish receiver) instead of returning with
the input coerced to the empty string. -/
theorem c7_format_nullish_raises : format none ["A"] = .error .typeError := rfl

/-- C7 amended: `capitalize`, `state2uri`, `uri2state` and `extendQuery`
return without raising on nullish string inputs (nullish coerces to the
empty string or the empty mapping), but `format` raises a TypeError on a
nullish template and `getByPath` raises a TypeError on a nullish path. -/
theorem c7_nullish_tolerance (n : String) (frp : Option String) :
    capitalize none = "" ∧ state2uri none = "" ∧ uri2state none = .ok [] ∧
      (extendQueryFull (some n) none frp).1 = .ok n ∧
      (extendQueryFull none none none).1 = .ok "" ∧
      format none ["A"] = .error .typeError ∧
      getByPath (.obj []) none none = .error .typeError := by
  refine ⟨rfl, rfl, rfl, ?_, rfl, rfl, rfl⟩
  by_cases hn : n = ""
  · subst hn; rfl
  · simp [extendQueryFull, urlArgIsEmpty, hn]

/-- C2 counterexample: with the already parsed mapping `{a: 1}` as
`oldUrl` and a new URL carrying `b=2`, the caller mapping finally holds
`{a: 1, b: 2}`: the call has mutated its argument, which therefore is not
left unchanged. -/
theorem c2_extendQuery_mutates :
    (extendQueryFull (some "/p?b=2") (some (.obj [("a", ["1"])])) none).2
        = some [("a", ["1"]), ("b", ["2"])] ∧
      (some [("a", ["1"]), ("b", ["2"])] : Option QMap) ≠ some [("a", ["1"])] :=
  ⟨rfl, by decide⟩

/-- C2 amended: when `oldUrl` is an already parsed mapping, `extendQuery`
mutates the caller object in place: whenever the merge path runs (the
mapping is nonempty), the caller object finally holds the merged
parameters, with the forced key deleted and the new parameters assigned
over the old ones; the mapping is left unchanged only when it is empty, so
that an early return fires. -/
theorem c2_extendQuery_mutation (n : String) (m : QMap) (frp : Option String)
    (nm : QMap) (hm : m ≠ []) (hn : parsedQueryOf n = .ok nm) :
    (extendQueryFull (some n) (some (.obj m)) frp).2 =
        some (lodashExtend
          (if strTruthy frp then objDelete m (frp.getD "") else m) nm) ∧
      (extendQueryFull (some n) (some (.obj [])) frp).2 = some [] := by
  constructor
  · simp [extendQueryFull, urlArgIsEmpty, hm, hn]
  · by_cases hn2 : n = ""
    · subst hn2; rfl
    · simp [extendQueryFull, urlArgIsEmpty, hn2]

/-- Witness for C2 amended at a concrete input. -/
theorem c2_extendQuery_mutation_witness :
    (extendQueryFull (some "/p?b=2") (some (.obj [("a", ["1"])])) none).2 =
        some (lodashExtend
          (if strTruthy none then objDelete [("a", ["1"])] ((none : Option String).getD "")
            else [("a", ["1"])]) [("b", ["2"])]) ∧
      (extendQueryFull (some "/p?b=2") (some (.obj [])) none).2 = some [] :=
  c2_extendQuery_mutation "/p?b=2" [("a", ["1"])] none [("b", ["2"])]
    (by decide) (by rfl)

theorem foldl_falsy (ks : List String) (v : JSVal) (hv : jsTruthy v = false) :
    ks.foldl (fun acc k => if jsTruthy acc then jsIndex acc k else acc) v = v := by
  induction ks with
  | nil => rfl
  | cons k ks ih =>
    rw [List.foldl_cons, if_neg (by simp [hv])]
    exact ih

theorem getByPathGo_eq_foldl (ks : List String) (v : JSVal) :
    getByPathGo ks v =
      ks.foldl (fun acc k => if jsTruthy acc then jsIndex acc k else acc) v := by
  induction ks generalizing v with
  | nil => rfl
  | cons k ks ih =>
    rw [getByPathGo, List.foldl_cons]
    by_cases hv : jsTruthy v
    · rw [if_pos hv, if_pos hv, ih]
    · rw [if_neg hv, if_neg hv]
      exact (foldl_falsy ks v (by simpa using hv)).symm

/-- C6: `getByPath` splits the path on the separator (default dot),
successively indexes the object with each key in order, stops as soon as
the current value is falsy or all keys are consumed, returns that current
value, and never raises when the path is a string (the spec-worded walk
`getByPathSpec` always agrees with the code and the call returns a value);
`getByPath({a:{b:{c:5}}}, 'a.b.c')` is 5 and `getByPath({a:{}}, 'a.b.c')`
is undefined, no error. -/
theorem c6_getByPath_spec (obj : JSVal) (path : String) (sep : Option String) :
    getByPath obj (some path) sep = .ok (getByPathSpec obj path sep) ∧
      getByPath (.obj [("a", .obj [("b", .obj [("c", .num 5)])])]) (some "a.b.c") none
        = .ok (.num 5) ∧
      getByPath (.obj [("a", .obj [])]) (some "a.b.c") none = .ok .undefined := by
  refine ⟨?_, rfl, rfl⟩
  simp only [getByPath, getByPathSpec]
  rw [getByPathGo_eq_foldl]

theorem replTokensAux_nil (values : List String) (fuel : Nat) :
    replTokensAux values fuel [] = [] := by
  cases fuel <;> rfl

theorem replTokensAux_copy (values : List String) (pre l : List Char) (fuel : Nat)
    (h : '%' ∉ pre) :
    replTokensAux values (pre.length + fuel) (pre ++ l) =
      pre ++ replTokensAux values fuel l := by
  induction pre with
  | nil => simp
  | cons c rest ih =>
    have hc : ¬ (c = '%' ∧ ((rest ++ l).takeWhile Char.isDigit) ≠ []) := by
      rintro ⟨rfl, -⟩
      exact h (by simp)
    have hmem : '%' ∉ rest := fun hr => h (List.mem_cons_of_mem c hr)
    have hlen : (c :: rest).length + fuel = (rest.length + fuel) + 1 := by
      simp only [List.length_cons]
      omega
    rw [List.cons_append, hlen]
    simp only [replTokensAux]
    rw [if_neg hc, ih hmem, List.cons_append]

theorem replTokensAux_token (values : List String) (ds : List Char) (fuel : Nat)
    (h1 : ds ≠ []) (h2 : ∀ c ∈ ds, c.isDigit) :
    replTokensAux values (fuel + 1) ('%' :: ds) =
      (fmtSubst values (digitsToNat ds)).data := by
  have ht : ds.takeWhile Char.isDigit = ds := by
    have h3 := takeWhile_append_all Char.isDigit ds [] h2
    simpa using h3
  have hd : ds.dropWhile Char.isDigit = [] := by
    have h3 := dropWhile_append_all Char.isDigit ds [] h2
    simpa using h3
  simp only [replTokensAux]
  split
  next hcond =>
    rw [ht, hd, replTokensAux_nil]
    simp
  next hcond =>
    rw [ht] at hcond
    simp [h1] at hcond

/-- C8: `format` replaces each token `%N` (N a decimal index of at least
1) with the string form of the Nth extra argument, and a token whose index
exceeds the argument count substitutes the string coercion of `undefined`;
`format('Hello %1 and %2', 'A', 'B')` is `Hello A and B`. -/
theorem c8_format_tokens (pre ds : List Char) (args : List String)
    (h1 : '%' ∉ pre) (h2 : ds ≠ []) (h3 : ∀ c ∈ ds, c.isDigit)
    (h4 : 1 ≤ digitsToNat ds) :
    format (some ⟨pre ++ '%' :: ds⟩) args =
        .ok ⟨pre ++ (fmtSubst args (digitsToNat ds - 1)).data⟩ ∧
      format (some "Hello %1 and %2") ["A", "B"] = .ok "Hello A and B" := by
  refine ⟨?_, rfl⟩
  obtain ⟨k, hk⟩ : ∃ k, digitsToNat ds = k + 1 := ⟨digitsToNat ds - 1, by omega⟩
  simp only [format]
  have hlen : (pre ++ '%' :: ds).length = pre.length + (ds.length + 1) := by
    simp [List.length_append]
  rw [hlen, replTokensAux_copy _ pre ('%' :: ds) (ds.length + 1) h1,
    replTokensAux_token _ ds ds.length h2 h3, hk]
  simp only [fmtSubst, Nat.add_sub_cancel]

/-- Witness for C8 at a concrete input. -/
theorem c8_format_tokens_witness :
    format (some ⟨['H'] ++ '%' :: ['1']⟩) ["A"] =
        .ok ⟨['H'] ++ (fmtSubst ["A"] (digitsToNat ['1'] - 1)).data⟩ ∧
      format (some "Hello %1 and %2") ["A", "B"] = .ok "Hello A and B" :=
  c8_format_tokens ['H'] ['1'] ["A"] (by decide) (by decide) (by decide) (by decide)

/-- Key list of a query mapping, in insertion order. -/
def qkeys (m : QMap) : List String := m.map Prod.fst

theorem mem_qkeys_objSetQ (d : QMap) (a : String) (v : List String) (x : String) :
    x ∈ qkeys (objSetQ d a v) ↔ x ∈ qkeys d ∨ x = a := by
  rw [objSetQ]
  by_cases hd : (d.any fun p => decide (p.1 = a)) = true
  · rw [if_pos hd]
    have hmap : qkeys (d.map fun p => if p.1 = a then (p.1, v) else p) = qkeys d := by
      rw [qkeys, qkeys, List.map_map]
      apply List.map_congr_left
      intro p hp
      by_cases hpa : p.1 = a <;> simp [hpa]
    rw [hmap]
    have ha : a ∈ qkeys d := by
      obtain ⟨p, hp, hpa⟩ := List.any_eq_true.mp hd
      rw [qkeys, List.mem_map]
      exact ⟨p, hp, by simpa using hpa⟩
    constructor
    · exact Or.inl
    · rintro (h | rfl)
      · exact h
      · exact ha
  · rw [if_neg hd, qkeys, List.map_append]
    simp [qkeys]

theorem mem_qkeys_extend (s d : QMap) (x : String) :
    x ∈ qkeys (lodashExtend d s) ↔ x ∈ qkeys d ∨ x ∈ qkeys s := by
  induction s generalizing d with
  | nil => simp [lodashExtend, qkeys]
  | cons p s ih =>
    have h0 : lodashExtend d (p :: s) = lodashExtend (objSetQ d p.1 p.2) s := rfl
    rw [h0, ih, mem_qkeys_objSetQ]
    simp only [qkeys, List.map_cons, List.mem_cons]
    tauto

theorem not_mem_qkeys_objDelete (m : QMap) (k : String) :
    k ∉ qkeys (objDelete m k) := by
  intro hmem
  rw [qkeys, List.mem_map] at hmem
  obtain ⟨p, hp, hpk⟩ := hmem
  rw [objDelete, List.mem_filter] at hp
  have h2 := hp.2
  simp only [decide_eq_true_eq] at h2
  exact h2 hpk

theorem lodashExtend_ne_nil (d s : QMap) (hd : d ≠ []) : lodashExtend d s ≠ [] := by
  intro hmerge
  obtain ⟨p, hp⟩ : ∃ p, p ∈ d := by
    cases d with
    | nil => exact absurd rfl hd
    | cons q t => exact ⟨q, by simp⟩
  have hmem : p.1 ∈ qkeys (lodashExtend d s) :=
    (mem_qkeys_extend s d p.1).mpr (Or.inl (by rw [qkeys, List.mem_map]; exact ⟨p, hp, rfl⟩))
  rw [hmerge] at hmem
  simp [qkeys] at hmem

theorem objLookup_eq_none_of_not_mem (s : QMap) (key : String) (h : key ∉ qkeys s) :
    objLookup s key = none := by
  rw [objLookup]
  have hfind : s.find? (fun p => decide (p.1 = key)) = none := by
    rw [List.find?_eq_none]
    intro q hq
    simp only [decide_eq_true_eq]
    intro hqk
    exact h (by rw [qkeys, List.mem_map]; exact ⟨q, hq, hqk⟩)
  rw [hfind]
  rfl

theorem objLookup_objSetQ_self (d : QMap) (a : String) (v : List String) :
    objLookup (objSetQ d a v) a = some v := by
  rw [objSetQ, objLookup]
  by_cases hd : (d.any fun p => decide (p.1 = a)) = true
  · rw [if_pos hd, List.find?_map]
    have hcomp : ((fun p : String × List String => decide (p.1 = a)) ∘
        (fun p => if p.1 = a then (p.1, v) else p)) =
        (fun p : String × List String => decide (p.1 = a)) := by
      funext p
      by_cases hpa : p.1 = a <;> simp [Function.comp, hpa]
    rw [hcomp]
    cases hfind : d.find? (fun p => decide (p.1 = a)) with
    | none =>
      rw [List.find?_eq_none] at hfind
      obtain ⟨p, hp, hpa⟩ := List.any_eq_true.mp hd
      exact absurd hpa (hfind p hp)
    | some q =>
      have hqa : q.1 = a := by simpa using List.find?_some hfind
      simp [hqa]
  · rw [if_neg hd, List.find?_append]
    have hnone : d.find? (fun p => decide (p.1 = a)) = none := by
      rw [List.find?_eq_none]
      intro p hp
      simp only [decide_eq_true_eq]
      intro hpa
      exact hd (List.any_eq_true.mpr ⟨p, hp, by simp [hpa]⟩)
    rw [hnone]
    simp

theorem objLookup_objSetQ_ne (d : QMap) (a : String) (v : List String) (key : String)
    (h : key ≠ a) : objLookup (objSetQ d a v) key = objLookup d key := by
  rw [objSetQ, objLookup, objLookup]
  by_cases hd : (d.any fun p => decide (p.1 = a)) = true
  · rw [if_pos hd, List.find?_map]
    have hcomp : ((fun p : String × List String => decide (p.1 = key)) ∘
        (fun p => if p.1 = a then (p.1, v) else p)) =
        (fun p : String × List String => decide (p.1 = key)) := by
      funext p
      by_cases hpa : p.1 = a <;> simp [Function.comp, hpa]
    rw [hcomp]
    cases hfind : d.find? (fun p => decide (p.1 = key)) with
    | none => simp
    | some q =>
      have hq : q.1 = key := by simpa using List.find?_some hfind
      have hqa : ¬ q.1 = a := by rw [hq]; exact h
      simp [hqa]
  · rw [if_neg hd, List.find?_append]
    have h1 : [(a, v)].find? (fun p => decide (p.1 = key)) = none := by
      rw [List.find?_eq_none]
      intro p hp
      simp only [List.mem_singleton] at hp
      subst hp
      simp only [decide_eq_true_eq]
      exact fun hak => h hak.symm
    rw [h1]
    cases d.find? (fun p => decide (p.1 = key)) <;> rfl

theorem objLookup_extend (s d : QMap) (key : String) (hs : (qkeys s).Nodup) :
    objLookup (lodashExtend d s) key =
      match objLookup s key with
      | some v => some v
      | none => objLookup d key := by
  induction s generalizing d with
  | nil => simp [lodashExtend, objLookup]
  | cons p s ih =>
    have h0 : lodashExtend d (p :: s) = lodashExtend (objSetQ d p.1 p.2) s := rfl
    have hs0 : p.1 ∉ qkeys s := by
      rw [qkeys, List.map_cons, List.nodup_cons] at hs
      exact hs.1
    have hs2 : (qkeys s).Nodup := by
      rw [qkeys, List.map_cons, List.nodup_cons] at hs
      exact hs.2
    rw [h0, ih _ hs2]
    by_cases hkey : key = p.1
    · have h1 : objLookup s key = none := by
        rw [hkey]
        exact objLookup_eq_none_of_not_mem s p.1 hs0
      have h2 : objLookup (p :: s) key = some p.2 := by
        rw [objLookup, hkey, List.find?_cons_of_pos _ (by simp)]
        rfl
      rw [h1, h2]
      show objLookup (objSetQ d p.1 p.2) key = some p.2
      rw [hkey]
      exact objLookup_objSetQ_self d p.1 p.2
    · have h2 : objLookup (p :: s) key = objLookup s key := by
        rw [objLookup, objLookup, List.find?_cons_of_neg _ (by simp [Ne.symm hkey])]
      rw [h2]
      cases hlk : objLookup s key with
      | some v => rfl
      | none => exact objLookup_objSetQ_ne d p.1 p.2 key hkey

theorem qmapAdd_ne_nil (obj : QMap) (k v : String) : qmapAdd obj k v ≠ [] := by
  rw [qmapAdd]
  split
  next h =>
    cases obj with
    | nil => simp at h
    | cons q t => simp
  next h => simp

theorem qmapAdd_nodup (m : QMap) (k v : String) (h : (qkeys m).Nodup) :
    (qkeys (qmapAdd m k v)).Nodup := by
  rw [qmapAdd]
  split
  next hany =>
    have hmap : qkeys (m.map fun p => if p.1 = k then (p.1, p.2 ++ [v]) else p) = qkeys m := by
      rw [qkeys, qkeys, List.map_map]
      apply List.map_congr_left
      intro p hp
      by_cases hpk : p.1 = k <;> simp [hpk]
    rw [hmap]
    exact h
  next hany =>
    have hk : k ∉ qkeys m := by
      intro hmem
      rw [qkeys, List.mem_map] at hmem
      obtain ⟨p, hp, hpk⟩ := hmem
      exact hany (List.any_eq_true.mpr ⟨p, hp, by simp [hpk]⟩)
    rw [qkeys, List.map_append]
    rw [List.nodup_append]
    refine ⟨h, by simp, ?_⟩
    intro x hx
    simp only [List.map_cons, List.map_nil, List.mem_singleton]
    intro hxk
    subst hxk
    exact hk hx

theorem except_bind_error {ε α β : Type} (e : ε) (f : α → Except ε β) :
    ((Except.error e : Except ε α) >>= f) = Except.error e := rfl

theorem except_bind_ok {ε α β : Type} (a : α) (f : α → Except ε β) :
    ((Except.ok a : Except ε α) >>= f) = f a := rfl

theorem except_pure_eq {ε α : Type} (a : α) : (pure a : Except ε α) = Except.ok a := rfl

theorem except_bind2_pure_ok {ε α β γ : Type} (x : Except ε α) (y : Except ε β)
    (g : α → β → γ) (r : γ)
    (h : (x >>= fun a => y >>= fun b => pure (g a b)) = Except.ok r) :
    ∃ a b, r = g a b := by
  cases x with
  | error e =>
    rw [except_bind_error] at h
    cases h
  | ok a =>
    simp only [except_bind_ok] at h
    cases y with
    | error e =>
      rw [except_bind_error] at h
      cases h
    | ok b =>
      simp only [except_bind_ok, except_pure_eq] at h
      injection h with h2
      exact ⟨a, b, h2.symm⟩

theorem foldlM_except_inv {α β ε : Type} (P : β → Prop) (f : β → α → Except ε β)
    (hf : ∀ b a b2, f b a = .ok b2 → P b → P b2) :
    ∀ (l : List α) (b m : β), l.foldlM f b = .ok m → P b → P m := by
  intro l
  induction l with
  | nil =>
    intro b m h hb
    rw [List.foldlM_nil] at h
    cases h
    exact hb
  | cons a l ih =>
    intro b m h hb
    rw [List.foldlM_cons] at h
    cases hf0 : f b a with
    | error e =>
      rw [hf0, except_bind_error] at h
      cases h
    | ok b2 =>
      rw [hf0] at h
      simp only [except_bind_ok] at h
      exact ih b2 m h (hf b a b2 hf0 hb)

theorem qsParseStep_ok (obj m2 : QMap) (seg : List Char)
    (h : qsParseStep obj seg = .ok m2) : ∃ k v, m2 = qmapAdd obj k v := by
  simp only [qsParseStep] at h
  obtain ⟨a, b, rfl⟩ := except_bind2_pure_ok _ _ _ _ h
  exact ⟨⟨a⟩, ⟨b⟩, rfl⟩

theorem qsParse_ne_nil (qs : String) (m : QMap) (hqs : qs ≠ "")
    (h : qsParse qs = .ok m) : m ≠ [] := by
  rw [qsParse, if_neg hqs] at h
  cases hsegs : splitOnChar '&' qs.data with
  | nil => exact absurd hsegs (splitOnChar_ne_nil _ _)
  | cons s0 rest =>
    rw [hsegs, List.foldlM_cons] at h
    cases h0 : qsParseStep [] s0 with
    | error e =>
      rw [h0, except_bind_error] at h
      cases h
    | ok b1 =>
      rw [h0] at h
      simp only [except_bind_ok] at h
      have hb1 : b1 ≠ [] := by
        obtain ⟨k, v, rfl⟩ := qsParseStep_ok [] b1 s0 h0
        exact qmapAdd_ne_nil [] k v
      exact foldlM_except_inv (fun b => b ≠ []) qsParseStep
        (fun b a b2 hstep hb => by
          obtain ⟨k, v, rfl⟩ := qsParseStep_ok b b2 a hstep
          exact qmapAdd_ne_nil b k v) rest b1 m h hb1

theorem qsParse_nodup (qs : String) (m : QMap) (h : qsParse qs = .ok m) :
    (qkeys m).Nodup := by
  rw [qsParse] at h
  split at h
  · cases h
    simp [qkeys]
  · exact foldlM_except_inv (fun b => (qkeys b).Nodup) qsParseStep
      (fun b a b2 hstep hb => by
        obtain ⟨k, v, rfl⟩ := qsParseStep_ok b b2 a hstep
        exact qmapAdd_nodup b k v hb) _ [] m h (by simp [qkeys])

theorem parsedQueryOf_nodup (n : String) (nm : QMap)
    (h : parsedQueryOf n = .ok nm) : (qkeys nm).Nodup := by
  rw [parsedQueryOf] at h
  split at h
  · cases h
    simp [qkeys]
  · exact qsParse_nodup _ nm h

theorem extendQuery_merge_eq (n o : String) (frp : Option String) (nm om : QMap)
    (ho : o ≠ "") (hn : parsedQueryOf n = .ok nm) (hom : parsedQueryOf o = .ok om) :
    extendQuery n o frp =
      .ok (baseOf n ++
        (if lodashExtend (if strTruthy frp then objDelete om (frp.getD "") else om) nm = []
          then ""
          else "?" ++ qsStringify (lodashExtend
            (if strTruthy frp then objDelete om (frp.getD "") else om) nm))) := by
  simp [extendQuery, extendQueryFull, urlArgIsEmpty, ho, hn, hom]

/-- C3: with a supplied (nonempty) forced renew key `k`, `extendQuery`
removes `k` from the old parameter mapping before merging, so the merged
mapping contains `k` only when the new query supplies it, and the result
is the base of `newUrl` followed by the serialization of that merged
mapping, with no `?` appended when it is empty;
`extendQuery('/path', '/old?a=1', 'a')` is `/path` with no query suffix. -/
theorem c3_extendQuery_forced (n o k : String) (nm om : QMap)
    (hk : k ≠ "") (ho : o ≠ "") (hn : parsedQueryOf n = .ok nm)
    (hom : parsedQueryOf o = .ok om) :
    extendQuery n o (some k) =
        .ok (baseOf n ++
          (if lodashExtend (objDelete om k) nm = [] then ""
            else "?" ++ qsStringify (lodashExtend (objDelete om k) nm))) ∧
      (k ∈ qkeys (lodashExtend (objDelete om k) nm) → k ∈ qkeys nm) ∧
      extendQuery "/path" "/old?a=1" (some "a") = .ok "/path" := by
  have hfrp : strTruthy (some k) = true := by simp [strTruthy, hk]
  refine ⟨?_, ?_, rfl⟩
  · have h0 := extendQuery_merge_eq n o (some k) nm om ho hn hom
    rw [h0]
    simp [hfrp]
  · intro hkmem
    rcases (mem_qkeys_extend nm (objDelete om k) k).mp hkmem with h | h
    · exact absurd h (not_mem_qkeys_objDelete om k)
    · exact h

/-- Witness for C3 at concrete inputs. -/
theorem c3_extendQuery_forced_witness :
    extendQuery "/path" "/old?a=1" (some "a") =
        .ok (baseOf "/path" ++
          (if lodashExtend (objDelete [("a", ["1"])] "a") [] = [] then ""
            else "?" ++ qsStringify (lodashExtend (objDelete [("a", ["1"])] "a") []))) ∧
      ("a" ∈ qkeys (lodashExtend (objDelete [("a", ["1"])] "a") []) →
        "a" ∈ qkeys ([] : QMap)) ∧
      extendQuery "/path" "/old?a=1" (some "a") = .ok "/path" :=
  c3_extendQuery_forced "/path" "/old?a=1" "a" [] [("a", ["1"])]
    (by decide) (by decide) (by rfl) (by rfl)

/-- C1: when `newUrl` contains `?` and `oldUrl` is nonempty with a
nonempty query substring whose parse succeeds, `extendQuery` returns the
substring of `newUrl` before its first `?`, then `?`, then the
serialization of the merged mapping; the merge starts from the old
parameters and assigns every new key over them, so per key the new value
wins on collision and keys present only in the old mapping are preserved;
`extendQuery('/path?b=2', '/old?a=1&b=9')` is `/path?a=1&b=2`. -/
theorem c1_extendQuery_merge (n o : String) (nm om : QMap)
    (_hq : '?' ∈ n.data) (ho : o ≠ "") (hoq : queryOf o ≠ "")
    (hn : parsedQueryOf n = .ok nm) (hom : qsParse (queryOf o) = .ok om) :
    extendQuery n o none = .ok (baseOf n ++ "?" ++ qsStringify (lodashExtend om nm)) ∧
      (∀ key, objLookup (lodashExtend om nm) key =
        match objLookup nm key with
        | some v => some v
        | none => objLookup om key) ∧
      extendQuery "/path?b=2" "/old?a=1&b=9" none = .ok "/path?a=1&b=2" := by
  have hpo : parsedQueryOf o = .ok om := by
    rw [parsedQueryOf, if_neg hoq]
    exact hom
  refine ⟨?_, ?_, rfl⟩
  · have h0 := extendQuery_merge_eq n o none nm om ho hn hpo
    rw [h0]
    have hom_ne : om ≠ [] := qsParse_ne_nil (queryOf o) om hoq hom
    have hmerge : lodashExtend om nm ≠ [] := lodashExtend_ne_nil om nm hom_ne
    simp [strTruthy, hmerge, String.append_assoc]
  · intro key
    exact objLookup_extend nm om key (parsedQueryOf_nodup n nm hn)

/-- Witness for C1 at a concrete input. -/
theorem c1_extendQuery_merge_witness :
    extendQuery "/path?b=2" "/old?a=1&b=9" none =
        .ok (baseOf "/path?b=2" ++ "?" ++
          qsStringify (lodashExtend [("a", ["1"]), ("b", ["9"])] [("b", ["2"])])) ∧
      objLookup (lodashExtend [("a", ["1"]), ("b", ["9"])] [("b", ["2"])]) "b" =
        (match objLookup [("b", ["2"])] "b" with
          | some v => some v
          | none => objLookup [("a", ["1"]), ("b", ["9"])] "b") ∧
      extendQuery "/path?b=2" "/old?a=1&b=9" none = .ok "/path?a=1&b=2" := by
  have h := c1_extendQuery_merge "/path?b=2" "/old?a=1&b=9"
      [("b", ["2"])] [("a", ["1"]), ("b", ["9"])]
      (by decide) (by decide) (by decide) (by rfl) (by rfl)
  exact ⟨h.1, h.2.1 "b", h.2.2⟩

theorem takeWhile_all {α : Type} (p : α → Bool) (xs : List α) (h : ∀ x ∈ xs, p x) :
    xs.takeWhile p = xs := by
  have h2 := takeWhile_append_all p xs [] h
  simpa using h2

theorem dropWhile_all {α : Type} (p : α → Bool) (xs : List α) (h : ∀ x ∈ xs, p x) :
    xs.dropWhile p = [] := by
  have h2 := dropWhile_append_all p xs [] h
  simpa using h2

theorem uriUnreserved_ne (c x : Char) (h : uriUnreserved c = true)
    (hx : uriUnreserved x = false) : c ≠ x := by
  rintro rfl
  rw [h] at hx
  cases hx

theorem uriUnreserved_not_lineTerm (c : Char) (h : uriUnreserved c = true) :
    ¬ isLineTerm c = true := by
  intro hl
  simp only [isLineTerm, Bool.or_eq_true, decide_eq_true_eq] at hl
  rcases hl with ((h1 | h1) | h1) | h1 <;> subst h1 <;> exact absurd h (by decide)

theorem partAssignAux_nil (fuel : Nat) : partAssignAux fuel [] = [] := by
  cases fuel <;> rfl

theorem partAssignments_pair (k v : List Char)
    (hk : k ≠ []) (hk2 : ∀ c ∈ k, ¬ c = '=') (hv : ∀ c ∈ v, ¬ isLineTerm c = true) :
    partAssignments (k ++ '=' :: v) = [(⟨k⟩, ⟨v⟩)] := by
  cases k with
  | nil => exact absurd rfl hk
  | cons c ktail =>
    rw [partAssignments]
    have hlen : ((c :: ktail) ++ '=' :: v).length = (ktail.length + v.length + 1) + 1 := by
      simp [List.length_append]
      omega
    rw [hlen, List.cons_append]
    simp only [partAssignAux]
    rw [if_neg (hk2 c (by simp))]
    have htw : (ktail ++ '=' :: v).takeWhile (fun x => decide ¬(x = '=')) = ktail := by
      rw [takeWhile_append_all _ ktail _
        (fun a ha => by simpa using hk2 a (List.mem_cons_of_mem c ha))]
      simp
    have hdw : (ktail ++ '=' :: v).dropWhile (fun x => decide ¬(x = '=')) = '=' :: v := by
      rw [dropWhile_append_all _ ktail _
        (fun a ha => by simpa using hk2 a (List.mem_cons_of_mem c ha))]
      simp
    rw [htw, hdw]
    have hv2 : ∀ a ∈ v, (fun x => decide ¬ isLineTerm x = true) a = true := by
      intro a ha
      simpa using hv a ha
    simp only [List.head?_cons, List.tail_cons, if_true]
    rw [takeWhile_all _ v hv2, dropWhile_all _ v hv2, partAssignAux_nil]

theorem encodeURIComponent_id (s : String) (h : ∀ c ∈ s.data, uriUnreserved c) :
    encodeURIComponent s = s := by
  rw [encodeURIComponent, encodeURIList_id s.data h]

theorem decodeURIComponent_id (s : String) (h : ∀ c ∈ s.data, c ≠ '%') :
    decodeURIComponent s = .ok s := by
  rw [decodeURIComponent, decodeURIList_id s.data h]
  rfl

theorem uri2stateStep_pair (acc : SMap) (k v : List Char)
    (hk : k ≠ []) (hku : ∀ c ∈ k, uriUnreserved c) (hvu : ∀ c ∈ v, uriUnreserved c) :
    uri2stateStep acc (k ++ '=' :: v) = .ok (objSetS acc ⟨k⟩ ⟨v⟩) := by
  rw [uri2stateStep, if_neg (by simp [hk])]
  rw [partAssignments_pair k v hk
    (fun c hc => uriUnreserved_ne c '=' (hku c hc) (by decide))
    (fun c hc => uriUnreserved_not_lineTerm c (hvu c hc))]
  simp only [List.foldlM_cons, List.foldlM_nil]
  have hdec : decodeURIComponent ⟨v⟩ = .ok ⟨v⟩ :=
    decodeURIComponent_id ⟨v⟩ (fun c hc => uriUnreserved_ne c '%' (hvu c hc) (by decide))
  simp [hdec, except_bind_ok, except_pure_eq]

theorem roundtrip_fold (st : SMap) (acc : SMap)
    (hkeys : ∀ p ∈ st, p.1.data ≠ [] ∧ ∀ c ∈ p.1.data, uriUnreserved c)
    (hvals : ∀ p ∈ st, ∀ c ∈ p.2.data, uriUnreserved c) :
    (st.map (fun p => p.1.data ++ '=' :: p.2.data)).foldlM uri2stateStep acc
      = .ok (st.foldl (fun r p => objSetS r p.1 p.2) acc) := by
  induction st generalizing acc with
  | nil => rfl
  | cons p st ih =>
    simp only [List.map_cons, List.foldlM_cons]
    have hp := hkeys p (by simp)
    have hstep := uri2stateStep_pair acc p.1.data p.2.data hp.1 hp.2
      (hvals p (by simp))
    rw [hstep]
    simp only [except_bind_ok]
    have hmk : (⟨p.1.data⟩ : String) = p.1 := rfl
    have hmk2 : (⟨p.2.data⟩ : String) = p.2 := rfl
    rw [hmk, hmk2, List.foldl_cons]
    exact ih _ (fun q hq => hkeys q (List.mem_cons_of_mem p hq))
      (fun q hq => hvals q (List.mem_cons_of_mem p hq))

theorem objSetS_not_mem (acc : SMap) (k v : String)
    (h : k ∉ acc.map Prod.fst) : objSetS acc k v = acc ++ [(k, v)] := by
  rw [objSetS, if_neg]
  intro hany
  obtain ⟨p, hp, hpk⟩ := List.any_eq_true.mp hany
  simp only [decide_eq_true_eq] at hpk
  exact h (by rw [List.mem_map]; exact ⟨p, hp, hpk⟩)

theorem foldl_objSetS_append (st : SMap) (acc : SMap)
    (hdisj : ∀ p ∈ st, p.1 ∉ acc.map Prod.fst)
    (hnodup : (st.map Prod.fst).Nodup) :
    st.foldl (fun r p => objSetS r p.1 p.2) acc = acc ++ st := by
  induction st generalizing acc with
  | nil => simp
  | cons p st ih =>
    rw [List.foldl_cons, objSetS_not_mem acc p.1 p.2 (hdisj p (by simp))]
    have hnodup2 : (st.map Prod.fst).Nodup := by
      rw [List.map_cons, List.nodup_cons] at hnodup
      exact hnodup.2
    have hp1 : p.1 ∉ st.map Prod.fst := by
      rw [List.map_cons, List.nodup_cons] at hnodup
      exact hnodup.1
    rw [ih (acc ++ [(p.1, p.2)]) ?hdisj2 hnodup2]
    · simp
    case hdisj2 =>
      intro q hq
      rw [List.map_append, List.mem_append]
      rintro (h1 | h1)
      · exact hdisj q (List.mem_cons_of_mem p hq) h1
      · simp only [List.map_cons, List.map_nil, List.mem_singleton] at h1
        exact hp1 (h1 ▸ (by rw [List.mem_map]; exact ⟨q, hq, rfl⟩))

/-- C4: on mappings whose keys are nonempty and whose keys and values use
only characters that `encodeURIComponent` leaves unescaped (so no `=`,
`&`, `%`, `?` or other special characters), `uri2state` inverts
`state2uri`: the round trip reproduces the original mapping;
`uri2state(state2uri({x: 1, y: two}))` is `{x: 1, y: two}`. -/
theorem c4_codec_roundtrip (st : SMap)
    (hkeys : ∀ p ∈ st, p.1 ≠ "" ∧ ∀ c ∈ p.1.data, uriUnreserved c)
    (hvals : ∀ p ∈ st, ∀ c ∈ p.2.data, uriUnreserved c)
    (hnodup : (st.map Prod.fst).Nodup) :
    uri2state (some (state2uri (some st))) = .ok st ∧
      uri2state (some (state2uri (some [("x", "1"), ("y", "two")]))) =
        .ok [("x", "1"), ("y", "two")] := by
  refine ⟨?_, by rfl⟩
  have hkeys2 : ∀ p ∈ st, p.1.data ≠ [] ∧ ∀ c ∈ p.1.data, uriUnreserved c := by
    intro p hp
    refine ⟨?_, (hkeys p hp).2⟩
    intro hdata
    exact (hkeys p hp).1 (String.ext hdata)
  -- the encoded parts are the plain key=value character lists
  have hparts : st.map (fun p => p.1.data ++ '=' :: (encodeURIComponent p.2).data)
      = st.map (fun p => p.1.data ++ '=' :: p.2.data) := by
    apply List.map_congr_left
    intro p hp
    rw [encodeURIComponent_id p.2 (hvals p hp)]
  cases st with
  | nil => rfl
  | cons p0 rest =>
    rw [state2uri]
    rw [hparts]
    set parts := (p0 :: rest).map (fun p => p.1.data ++ '=' :: p.2.data) with hpartseq
    have hpart0 : parts = (p0.1.data ++ '=' :: p0.2.data) ::
        rest.map (fun p => p.1.data ++ '=' :: p.2.data) := rfl
    have hk0 := hkeys2 p0 (by simp)
    -- the joined character list and its head
    have hne : intercalateChar '&' parts ≠ [] := by
      rw [hpart0]
      cases hrest : rest.map (fun p => p.1.data ++ '=' :: p.2.data) with
      | nil =>
        rw [intercalateChar]
        cases hd : p0.1.data with
        | nil => exact absurd hd hk0.1
        | cons c t => simp [hd]
      | cons q qs =>
        rw [intercalateChar]
        cases hd : p0.1.data with
        | nil => exact absurd hd hk0.1
        | cons c t => simp [hd]
    have hu_ne : (⟨intercalateChar '&' parts⟩ : String) ≠ "" := by
      intro he
      exact hne (congrArg String.data he)
    rw [uri2state, if_neg hu_ne]
    -- no leading question mark: the first character is a key character
    have hshape : ∃ c t, intercalateChar '&' parts = c :: t ∧ uriUnreserved c = true := by
      rw [hpart0]
      cases hd : p0.1.data with
      | nil => exact absurd hd hk0.1
      | cons c t =>
        have hcu : uriUnreserved c = true := hk0.2 c (by rw [hd]; simp)
        cases rest.map (fun p => p.1.data ++ '=' :: p.2.data) with
        | nil => exact ⟨c, t ++ '=' :: p0.2.data, rfl, hcu⟩
        | cons q qs =>
          exact ⟨c, (t ++ '=' :: p0.2.data) ++ '&' :: intercalateChar '&' (q :: qs),
            rfl, hcu⟩
    have hhead : stripLeadingQM (intercalateChar '&' parts)
        = intercalateChar '&' parts := by
      obtain ⟨c, t, hct, hcu⟩ := hshape
      rw [stripLeadingQM, hct, if_neg]
      · simp only [List.head?_cons, Option.some.injEq]
        exact uriUnreserved_ne c '?' hcu (by decide)
    show (splitOnChar '&' (stripLeadingQM (intercalateChar '&' parts))).foldlM
      uri2stateStep [] = .ok (p0 :: rest)
    rw [hhead]
    -- split recovers the parts
    have hnosep : ∀ part ∈ parts, '&' ∉ part := by
      intro part hpart
      rw [hpartseq, List.mem_map] at hpart
      obtain ⟨p, hp, rfl⟩ := hpart
      intro hmem
      rcases List.mem_append.mp hmem with h1 | h1
      · exact uriUnreserved_ne '&' '&' ((hkeys2 p hp).2 '&' h1) (by decide) rfl
      · rcases List.mem_cons.mp h1 with h2 | h2
        · exact absurd h2 (by decide)
        · exact uriUnreserved_ne '&' '&' (hvals p hp '&' h2) (by decide) rfl
    rw [splitOnChar_intercalate '&' parts (by rw [hpart0]; simp) hnosep]
    rw [hpartseq, roundtrip_fold _ [] hkeys2 hvals]
    rw [foldl_objSetS_append _ [] (by simp) hnodup]
    simp

/-- Witness for C4 at a concrete input. -/
theorem c4_codec_roundtrip_witness :
    uri2state (some (state2uri (some [("x", "1"), ("y", "two")]))) =
        .ok [("x", "1"), ("y", "two")] ∧
      uri2state (some (state2uri (some [("x", "1"), ("y", "two")]))) =
        .ok [("x", "1"), ("y", "two")] :=
  c4_codec_roundtrip [("x", "1"), ("y", "two")]
    (by decide) (by decide) (by decide)

end Stuff
